import Mathlib

/-!
Verification of the AIS software-defined-radio decoder
(`Projet-3A-SDR`): a shallow embedding of the C sources
(`STM32/User/complexLib.c`, `STM32/User/demod.c`, `STM32/User/trace.c`,
`Code C/aisdecode.c`) together with proofs about them.

Modelling conventions:
* C `int` arrays of bits are modelled as `Nat → Bool` (array contents,
  `0 ↦ false`, `1 ↦ true`) together with an explicit element count, or as
  `List Bool` when the length is part of the value.  An out-of-bounds read
  of a C array (undefined behaviour) is modelled as reading `false`.
* The complex samples processed by the discriminator originate from
  unsigned-byte I/Q pairs, so their components are integer-valued and all
  the float operations performed on them (`complexProduct`,
  `complexConjug`) are exact; they are modelled over `Int`.
  The test `arg(z) > 0` with `arg = atan2(imag, real)` (range `(−π, π]`)
  holds exactly when `imag > 0`, or `imag = 0` and `real < 0`; this is
  captured by `argPos`.
* C functions that fill a caller-supplied output array and return a count
  are modelled as functions returning the list of written elements; the
  returned count is the length of that list (the C code increments its
  output index exactly once per written element).
-/

namespace SDR

/-- Complex sample (`struct complex` of `complexLib.h`), restricted to the
integer-valued samples the pipeline actually produces. -/
structure complex where
  real : Int
  imag : Int
deriving DecidableEq, Repr

/-- Product of two complex numbers (`complexProduct` of `complexLib.c`). -/
def complexProduct (a b : complex) : complex :=
  ⟨a.real * b.real - a.imag * b.imag, a.imag * b.real + a.real * b.imag⟩

/-- Complex conjugate (`complexConjug` of `complexLib.c`). -/
def complexConjug (a : complex) : complex :=
  ⟨a.real, -a.imag⟩

/-- The test `arg(a) > 0` where `arg a = atan2(a.imag, a.real)` has range
`(−π, π]` (`arg` of `complexLib.c`): strictly positive exactly when the
imaginary part is positive, or the sample lies on the negative real axis
(where `atan2` returns `π`). -/
def argPos (a : complex) : Bool :=
  decide (0 < a.imag) || (decide (a.imag = 0) && decide (a.real < 0))

/-- Delayed copy of the input vector (`delayVector` of `demod.c`): the
first `timeDelay` samples are zero, sample `i ≥ timeDelay` is input sample
`i - timeDelay`. -/
def delayVector (inputVector : Nat → complex) (timeDelay : Nat) : Nat → complex :=
  fun i => if i < timeDelay then ⟨0, 0⟩ else inputVector (i - timeDelay)

/-- In-place product of the conjugated input with the delayed vector
(`computeMultSignals` of `demod.c`), viewed as the resulting array
contents. -/
def computeMultSignals (inputVector delayedVector : Nat → complex) : Nat → complex :=
  fun i => complexProduct (complexConjug (inputVector i)) (delayedVector i)

/-- Loop body of `computeOutput` of `demod.c`:
`for (i = 2*timeDelay-1; i < sizeSignal-timeDelay; i += timeDelay)` emit
`1` when `arg(buffer[i]) > 0`, else `0`.  The conjunct `0 < td` in the
guard excludes the step `td = 0`, on which the C loop would not
terminate. -/
def computeOutputAux (buffer : Nat → complex) (stop td i : Nat) : List Bool :=
  if h : i < stop ∧ 0 < td then
    argPos (buffer i) :: computeOutputAux buffer stop td (i + td)
  else []
termination_by stop - i
decreasing_by omega

/-- Bit-decision stage (`computeOutput` of `demod.c`). -/
def computeOutput (buffer : Nat → complex) (sizeSignal timeDelay : Nat) : List Bool :=
  computeOutputAux buffer (sizeSignal - timeDelay) timeDelay (2 * timeDelay - 1)

/-- Full discriminator (`demodulate` of `demod.c`): delay, conjugate
multiply, slice bits. -/
def demodulate (inputVector : Nat → complex) (sizeSignal timeDelay : Nat) : List Bool :=
  computeOutput (computeMultSignals inputVector (delayVector inputVector timeDelay))
    sizeSignal timeDelay

/-- Number of iterations of the `computeOutput` loop started at index `i`
with bound `stop`. -/
def outputCount (stop td i : Nat) : Nat :=
  if i < stop then (stop - 1 - i) / td + 1 else 0

/-- The 32-bit preamble reference pattern, the `preamble_flag` array of
`MSC_Application` in `trace.c`. -/
def preamble_flag : List Bool :=
  [false, true, false, true, false, true, false, true,
   false, true, false, true, false, true, false, true,
   false, true, false, true, false, true, false, true,
   false, true, true, true, true, true, true, false]

/-- Preamble test of `MSC_Application` in `trace.c`: `present` stays `1`
exactly when `bits[j+8] == preamble_flag[j]` for every `j < 32`. -/
def preambleCheck (bits : Nat → Bool) : Bool :=
  (List.range 32).all (fun j => bits (j + 8) == preamble_flag.getD j false)

/-- Windowing loop of `MSC_Application` in `trace.c`: for
`i < sizeSignal/timeDelay - 2` the window `i` is the 256 bits
`output[i+j]`, `j < 256`. -/
def driverWindows (output : Nat → Bool) (sizeSignal timeDelay : Nat) : List (List Bool) :=
  (List.range (sizeSignal / timeDelay - 2)).map
    (fun i => (List.range 256).map (fun j => output (i + j)))

/-- State-passing loop of `nrziInv` of `aisdecode.c`: if the bit differs
from the state, update the state and emit `0`, else emit `1`. -/
def nrziInvAux (state : Bool) : List Bool → List Bool
  | [] => []
  | b :: rest =>
    if b != state then false :: nrziInvAux b rest else true :: nrziInvAux state rest

/-- NRZI decoding (`nrziInv` of `aisdecode.c`), state initialised to 0. -/
def nrziInv (l : List Bool) : List Bool :=
  nrziInvAux false l

/-- Byte-wise bit reversal (`flipBits` of `aisdecode.c`): group `g` of the
output holds `output[8g+j] = input[8g+7-j]`; the outer loop runs while
`8g < size`. -/
def flipBits (inputVector : Nat → Bool) (size : Nat) : List Bool :=
  (List.range ((size + 7) / 8)).flatMap
    (fun g => (List.range 8).map (fun j => inputVector (8 * g + 7 - j)))

/-- Flag stripping (`removePreambleFlag` of `aisdecode.c`): copy `size`
bits starting at offset `sizePreambleFlag`. -/
def removePreambleFlag (inputVector : Nat → Bool) (sizePreambleFlag size : Nat) : List Bool :=
  (List.range size).map (fun i => inputVector (i + sizePreambleFlag))

/-- Checksum stripping (`removeCheckSum` of `aisdecode.c`): copy the first
`size` bits verbatim. -/
def removeCheckSum (inputVector : Nat → Bool) (size : Nat) : List Bool :=
  (List.range size).map (fun i => inputVector i)

/-- All-ones test (`arrayEqualOne` of `aisdecode.c`). -/
def arrayEqualOne (input : Nat → Bool) (size : Nat) : Bool :=
  (List.range size).all (fun i => input i)

/-- Contiguous slice `input[a], …, input[b-1]` of an array, as written by
the copy loops `for (j = a; j < b; j++)` of `aisdecode.c`. -/
def segment (input : Nat → Bool) (a b : Nat) : List Bool :=
  (List.range (b - a)).map (fun k => input (a + k))

/-- Scan loop of `bitStuffingInv` of `aisdecode.c` (`n_cons = 5`): while
`i < size`, test whether the five bits ending at `i` are all `1`
(`subarray[j] = input[i + j - 4]`); on a match copy `input[i0..i]` to the
output, set `i0 = i + 2` (skipping the stuff bit at `i + 1`) and jump
`i += 6`; otherwise `i += 1`.  After the loop, copy `input[i0..size-1]`. -/
def bitStuffingInvAux (input : Nat → Bool) (size i i0 : Nat) : List Bool :=
  if h : i < size then
    if arrayEqualOne (fun j => input (i + j - 4)) 5 then
      segment input i0 (i + 1) ++ bitStuffingInvAux input size (i + 6) (i + 2)
    else
      bitStuffingInvAux input size (i + 1) i0
  else
    segment input i0 size
termination_by size - i
decreasing_by all_goals omega

/-- Bit destuffing (`bitStuffingInv` of `aisdecode.c`), entered with
`i = n_cons - 1 = 4` and `i0 = 0`.  The C function's return value
`indexOut` is the number of bits written, i.e. the length of this list. -/
def bitStuffingInv (input : Nat → Bool) (size : Nat) : List Bool :=
  bitStuffingInvAux input size 4 0

/-- Reference destuffer used to reason about `bitStuffingInv`: it walks
the list one position at a time and, whenever the next five bits are all
`1`, emits them and drops the following (stuffed) bit. -/
def destuffL : List Bool → List Bool
  | [] => []
  | b :: rest =>
    if 5 ≤ (b :: rest).length ∧ (b :: rest).take 5 = List.replicate 5 true then
      List.replicate 5 true ++ destuffL ((rest.drop 4).drop 1)
    else
      b :: destuffL rest
termination_by l => l.length
decreasing_by
  all_goals simp
  all_goals omega

/-- Modelled from the spec: the transmitter-side HDLC bit-stuffing rule of
§4.5 and §8 ("insert a 0 after every run of five consecutive 1s"), which
is not part of the C sources under `src/`; `c` counts the consecutive `1`
bits already emitted since the last inserted `0` or `0` data bit. -/
def stuff (c : Nat) : List Bool → List Bool
  | [] => []
  | b :: rest =>
    if b then
      if c = 4 then true :: false :: stuff 0 rest else true :: stuff (c + 1) rest
    else
      false :: stuff 0 rest

/-- Modelled from the spec: the transmitter-side inverse-NRZI encoder of
§4.3 and §8 ("a transition encodes logical 0, no transition encodes
logical 1"), which is not part of the C sources under `src/`. -/
def nrziEncodeAux (state : Bool) : List Bool → List Bool
  | [] => []
  | v :: rest =>
    if v then state :: nrziEncodeAux state rest
    else (!state) :: nrziEncodeAux (!state) rest

/-- Modelled from the spec: inverse-NRZI encoding with initial state 0. -/
def nrziEncode (l : List Bool) : List Bool :=
  nrziEncodeAux false l

/-- Two's-complement reinterpretation (`twosComplement` of `aisdecode.c`).
The C argument is the (non-negative) accumulated magnitude, so it is taken
here as a `Nat`; the test `(val & sign_bit) != 0` with
`sign_bit = 1 << (size-1)` is exactly `Nat.testBit val (size-1)`. -/
def twosComplement (val : Nat) (size : Nat) : Int :=
  if Nat.testBit val (size - 1) then (val : Int) - 2 ^ size else (val : Int)

/-- Big-endian magnitude accumulation followed by sign adjustment
(`binToDec` of `aisdecode.c`): `result += bitVector[i] * pow(2, size-1-i)`
(exact for the integer values involved), then `twosComplement`. -/
def binToDec (bitVector : Nat → Bool) (size : Nat) : Int :=
  twosComplement
    (((List.range size).map (fun i => (if bitVector i then 1 else 0) * 2 ^ (size - 1 - i))).sum)
    size

/-- Field extraction (`getFromMessage` of `aisdecode.c`): copy the bits
`input[start..stop-1]` into a scratch array and convert.  No bounds check
is performed by the C code. -/
def getFromMessage (inputVector : Nat → Bool) (start stop : Nat) : Int :=
  binToDec (fun i => inputVector (start + i)) (stop - start)

/-- Modelled from the spec: the bounds-checked Field Extractor required by
§4.8 and §7 ("must fail loudly (explicit error/panic) rather than silently
truncate"); `none` is the explicit error on a malformed range.  This
checked variant is absent from the C sources, which perform no bounds
check. -/
def getFromMessageChecked (input : List Bool) (start stop : Nat) : Option Int :=
  if stop ≤ input.length ∧ start < stop then
    some (getFromMessage (fun k => input.getD k false) start stop)
  else
    none

/-- Per-window processing of `MSC_Application` in `trace.c`: NRZI-decode
the 256-bit window in place, test the preamble, and on acceptance strip
the flags, destuff, strip the checksum, truncate to a multiple of 8,
reverse bits per byte and extract the message-type field `[0, 6)`; a
rejected window is freed and yields nothing. -/
def processWindow (sizePreambleFlag sizeEndFlag sizeCheckSum : Nat)
    (window : List Bool) : Option Int :=
  let bits := nrziInv window
  if preambleCheck (fun k => bits.getD k false) then
    let size1 := 256 - (sizePreambleFlag + sizeEndFlag)
    let withoutFlags := removePreambleFlag (fun k => bits.getD k false) sizePreambleFlag size1
    let destuffed := bitStuffingInv (fun k => withoutFlags.getD k false) size1
    let size2 := destuffed.length - sizeCheckSum
    let withoutChecksum := removeCheckSum (fun k => destuffed.getD k false) size2
    let size3 := size2 / 8 * 8
    let flipped := flipBits (fun k => withoutChecksum.getD k false) size3
    some (getFromMessage (fun k => flipped.getD k false) 0 6)
  else
    none

/-- Concrete signal used to instantiate the discriminator theorems. -/
def sampleSignal : Nat → complex :=
  fun i => ⟨(i : Int) - 2, 1⟩

/-- Concrete all-zero signal used for counterexamples. -/
def zeroSignal : Nat → complex :=
  fun _ => ⟨0, 0⟩

/-- Concrete window matching the preamble at offsets 8..39, zero
elsewhere. -/
def refWindow : Nat → Bool :=
  fun k => if 8 ≤ k ∧ k < 40 then preamble_flag.getD (k - 8) false else false

/-- Concrete byte used in the bit-reversal example of §8. -/
def exampleByte : Nat → Bool :=
  fun k => [true, false, true, true, false, false, false, false].getD k false

/-! Helper lemmas. -/

theorem rangeMap_getD {α : Type} (f : Nat → α) (n i : Nat) (d : α) (h : i < n) :
    ((List.range n).map f).getD i d = f i := by
  rw [List.getD_eq_getElem?_getD, List.getElem?_map, List.getElem?_range h]
  rfl

/-- Closed form of the `computeOutput` loop: a map over the iteration
count. -/
theorem computeOutputAux_eq (buffer : Nat → complex) (stop td : Nat) (htd : 0 < td) :
    ∀ n i, stop - i = n →
      computeOutputAux buffer stop td i =
        (List.range (outputCount stop td i)).map (fun k => argPos (buffer (i + td * k))) := by
  intro n
  induction n using Nat.strong_induction_on with
  | _ n ih =>
    intro i hn
    rw [computeOutputAux]
    by_cases hi : i < stop
    · rw [dif_pos ⟨hi, htd⟩]
      rw [ih (stop - (i + td)) (by omega) (i + td) rfl]
      have hcount : outputCount stop td i = outputCount stop td (i + td) + 1 := by
        unfold outputCount
        by_cases h2 : i + td < stop
        · rw [if_pos hi, if_pos h2]
          have hsplit : stop - 1 - i = (stop - 1 - (i + td)) + td := by omega
          rw [hsplit, Nat.add_div_right _ htd]
        · rw [if_pos hi, if_neg h2]
          have hlt : stop - 1 - i < td := by omega
          rw [Nat.div_eq_of_lt hlt]
      rw [hcount, List.range_succ_eq_map, List.map_cons, List.map_map]
      have hfun : ((fun k => argPos (buffer (i + td * k))) ∘ Nat.succ) =
          (fun k => argPos (buffer (i + td + td * k))) := by
        funext k
        have harg : i + td * (k + 1) = i + td + td * k := by ring
        simp [Function.comp, Nat.succ_eq_add_one, harg]
      rw [hfun]
      have hhead : i + td * 0 = i := by ring
      rw [hhead]
    · have hneg : ¬ (i < stop ∧ 0 < td) := fun hc => hi hc.1
      rw [dif_neg hneg]
      simp [outputCount, hi]

/-- Closed form of the whole discriminator. -/
theorem demodulate_eq (input : Nat → complex) (sizeSignal timeDelay : Nat)
    (htd : 0 < timeDelay) :
    demodulate input sizeSignal timeDelay =
      (List.range (outputCount (sizeSignal - timeDelay) timeDelay (2 * timeDelay - 1))).map
        (fun k => argPos (computeMultSignals input (delayVector input timeDelay)
          (2 * timeDelay - 1 + timeDelay * k))) := by
  unfold demodulate computeOutput
  exact computeOutputAux_eq _ _ _ htd _ _ rfl

/-! Claim theorems for the Discriminator and the Pipeline Driver. -/

/-- Claim C2: `demodulate` emits one bit per index
`i = 2*timeDelay - 1 + k*timeDelay` with `i < sizeSignal - timeDelay`, in
increasing order of `i`; bit `k` is `1` iff
`arg(conj(input[i]) * delayed[i])` is strictly positive, with
`delayed = delayVector input timeDelay`; the number of emitted bits is
`(sizeSignal - timeDelay - (2*timeDelay - 1) - 1) / timeDelay + 1`, or
zero when the index range is empty. -/
theorem claim_C2 (input : Nat → complex) (sizeSignal timeDelay : Nat) (h : 1 ≤ timeDelay) :
    (demodulate input sizeSignal timeDelay).length =
      (if 2 * timeDelay - 1 < sizeSignal - timeDelay
       then (sizeSignal - timeDelay - (2 * timeDelay - 1) - 1) / timeDelay + 1 else 0)
  ∧ (∀ k, k < (demodulate input sizeSignal timeDelay).length →
      (demodulate input sizeSignal timeDelay).getD k false =
        argPos (complexProduct
          (complexConjug (input (2 * timeDelay - 1 + k * timeDelay)))
          (delayVector input timeDelay (2 * timeDelay - 1 + k * timeDelay))))
  ∧ (∀ k, k < (demodulate input sizeSignal timeDelay).length →
      2 * timeDelay - 1 + k * timeDelay < sizeSignal - timeDelay) := by
  have htd : 0 < timeDelay := h
  rw [demodulate_eq input sizeSignal timeDelay htd]
  refine ⟨?_, ?_, ?_⟩
  · rw [List.length_map, List.length_range]
    unfold outputCount
    by_cases hs : 2 * timeDelay - 1 < sizeSignal - timeDelay
    · rw [if_pos hs, if_pos hs]
      congr 2
      omega
    · rw [if_neg hs, if_neg hs]
  · intro k hk
    rw [List.length_map, List.length_range] at hk
    rw [rangeMap_getD _ _ _ _ hk]
    have harg : 2 * timeDelay - 1 + timeDelay * k = 2 * timeDelay - 1 + k * timeDelay := by
      ring
    rw [harg]
    rfl
  · intro k hk
    rw [List.length_map, List.length_range] at hk
    unfold outputCount at hk
    by_cases hs : 2 * timeDelay - 1 < sizeSignal - timeDelay
    · rw [if_pos hs] at hk
      have h1 : k ≤ (sizeSignal - timeDelay - 1 - (2 * timeDelay - 1)) / timeDelay := by
        omega
      have h2 : k * timeDelay ≤
          (sizeSignal - timeDelay - 1 - (2 * timeDelay - 1)) / timeDelay * timeDelay :=
        Nat.mul_le_mul_right _ h1
      have h3 : (sizeSignal - timeDelay - 1 - (2 * timeDelay - 1)) / timeDelay * timeDelay ≤
          sizeSignal - timeDelay - 1 - (2 * timeDelay - 1) :=
        Nat.div_mul_le_self _ _
      omega
    · rw [if_neg hs] at hk
      omega

/-- Claim C2, witness: the theorem instantiated at `sampleSignal`,
`sizeSignal = 5`, `timeDelay = 1`. -/
theorem claim_C2_witness :
    (demodulate sampleSignal 5 1).length =
      (if 2 * 1 - 1 < 5 - 1 then (5 - 1 - (2 * 1 - 1) - 1) / 1 + 1 else 0)
  ∧ (∀ k, k < (demodulate sampleSignal 5 1).length →
      (demodulate sampleSignal 5 1).getD k false =
        argPos (complexProduct
          (complexConjug (sampleSignal (2 * 1 - 1 + k * 1)))
          (delayVector sampleSignal 1 (2 * 1 - 1 + k * 1))))
  ∧ (∀ k, k < (demodulate sampleSignal 5 1).length →
      2 * 1 - 1 + k * 1 < 5 - 1) :=
  claim_C2 sampleSignal 5 1 (by decide)

/-- Claim C7 fails on the code: with `sizeSignal = 5 > 4 = 2*timeDelay`
(`timeDelay = 2`) the discriminator nevertheless emits zero bits, because
the bit loop starts at `2*timeDelay - 1 = 3` which already reaches the
bound `sizeSignal - timeDelay = 3`. -/
theorem claim_C7_counterexample :
    demodulate zeroSignal 5 2 = [] ∧ 2 * 2 < 5 := by
  constructor
  · rw [demodulate_eq zeroSignal 5 2 (by decide)]
    norm_num [outputCount]
  · decide

/-- Claim C7 (amended): for `timeDelay ≥ 1` the discriminator yields zero
bits exactly when `sizeSignal < 3*timeDelay`; in particular
`sizeSignal ≤ 2*timeDelay` still implies an empty output, but
`sizeSignal > 2*timeDelay` alone does not guarantee a non-empty one. -/
theorem claim_C7_amended (input : Nat → complex) (sizeSignal timeDelay : Nat)
    (h : 1 ≤ timeDelay) :
    demodulate input sizeSignal timeDelay = [] ↔ sizeSignal < 3 * timeDelay := by
  rw [demodulate_eq input sizeSignal timeDelay h]
  rw [List.map_eq_nil_iff, List.range_eq_nil]
  unfold outputCount
  by_cases hs : 2 * timeDelay - 1 < sizeSignal - timeDelay
  · rw [if_pos hs]
    constructor
    · intro h0
      exact absurd h0 (Nat.succ_ne_zero _)
    · intro h0
      exact absurd hs (by omega)
  · rw [if_neg hs]
    constructor
    · intro _
      omega
    · intro _
      rfl

/-- Claim C7 (amended), witness: the theorem instantiated at
`zeroSignal`, `sizeSignal = 9`, `timeDelay = 3`. -/
theorem claim_C7_amended_witness :
    demodulate zeroSignal 9 3 = [] ↔ 9 < 3 * 3 :=
  claim_C7_amended zeroSignal 9 3 (by decide)

/-- Claim C1 fails on the code: with `sizeSignal = 4096`, `timeDelay = 8`
the driver processes `4096/8 - 2 = 510` windows, not
`floor(510/256) = 1`, and window `1` starts at bit 1, not bit 256 — on
the vector that is set only at bit 256, the claim predicts window 1 to
begin with a `1` bit while the code's window 1 begins with a `0`. -/
theorem claim_C1_counterexample :
    (driverWindows (fun n => decide (n = 256)) 4096 8).length = 510
  ∧ (510 : Nat) / 256 = 1
  ∧ ((driverWindows (fun n => decide (n = 256)) 4096 8).getD 1 []).getD 0 false = false
  ∧ (fun n => decide (n = 256)) 256 = true := by
  refine ⟨?_, by decide, ?_, by decide⟩
  · simp [driverWindows]
  · unfold driverWindows
    rw [rangeMap_getD _ _ _ _ (by decide)]
    rw [rangeMap_getD _ _ _ _ (by decide)]
    decide

/-- Claim C1 (amended): the Pipeline Driver slides the 256-bit window one
bit at a time over the discriminator output: it processes
`sizeSignal/timeDelay - 2` windows, window `k` consists of bits
`[k, k+256)`, and consecutive windows overlap in 255 shared bits (so a
bit may be read by up to 256 windows, and windows near the end read past
the end of the vector). -/
theorem claim_C1_amended (v : Nat → Bool) (sizeSignal timeDelay k j : Nat)
    (hk : k + 1 < sizeSignal / timeDelay - 2) (hj : j + 1 < 256) :
    (driverWindows v sizeSignal timeDelay).length = sizeSignal / timeDelay - 2
  ∧ ((driverWindows v sizeSignal timeDelay).getD k []).getD j false = v (k + j)
  ∧ ((driverWindows v sizeSignal timeDelay).getD k []).getD (j + 1) false =
      ((driverWindows v sizeSignal timeDelay).getD (k + 1) []).getD j false := by
  refine ⟨by simp [driverWindows], ?_, ?_⟩
  · unfold driverWindows
    rw [rangeMap_getD _ _ _ _ (by omega), rangeMap_getD _ _ _ _ (by omega)]
  · unfold driverWindows
    rw [rangeMap_getD _ _ _ _ (by omega), rangeMap_getD _ _ _ _ (by omega),
      rangeMap_getD _ _ _ _ (by omega), rangeMap_getD _ _ _ _ (by omega)]
    congr 1
    omega

/-- Acceptance characterisation of the preamble loop. -/
theorem preambleCheck_iff (v : Nat → Bool) :
    preambleCheck v = true ↔ ∀ j, j < 32 → v (j + 8) = preamble_flag.getD j false := by
  simp [preambleCheck, List.all_eq_true, List.mem_range, beq_iff_eq]

/-- Claim C5: the Preamble Matcher accepts a window iff its bits at
offsets 8..39 equal the 32-bit reference pattern; a matching window is
accepted, each of the 32 single-bit flips in that range is rejected, and
a rejected window yields no message from the per-window pipeline. -/
theorem claim_C5 (w : Nat → Bool)
    (hm : ∀ j, j < 32 → w (j + 8) = preamble_flag.getD j false) :
    preambleCheck w = true
  ∧ (∀ j, j < 32 →
      preambleCheck (fun k => if k = j + 8 then !(w k) else w k) = false)
  ∧ (∀ v : Nat → Bool, preambleCheck v = true ↔
      ∀ j, j < 32 → v (j + 8) = preamble_flag.getD j false)
  ∧ (∀ p e c (raw : List Bool),
      preambleCheck (fun k => (nrziInv raw).getD k false) = false →
      processWindow p e c raw = none) := by
  refine ⟨(preambleCheck_iff w).mpr hm, ?_, preambleCheck_iff, ?_⟩
  · intro j hj
    rw [Bool.eq_false_iff]
    intro hacc
    have hflip := (preambleCheck_iff _).mp hacc j hj
    rw [if_pos rfl] at hflip
    have hv := hm j hj
    rw [hv] at hflip
    exact absurd hflip (by cases preamble_flag.getD j false <;> decide)
  · intro p e c raw hfail
    simp only [processWindow]
    rw [hfail]
    simp

/-- Claim C5, witness: the theorem instantiated at the concrete matching
window `refWindow`. -/
theorem claim_C5_witness :
    preambleCheck refWindow = true
  ∧ (∀ j, j < 32 →
      preambleCheck (fun k => if k = j + 8 then !(refWindow k) else refWindow k) = false)
  ∧ (∀ v : Nat → Bool, preambleCheck v = true ↔
      ∀ j, j < 32 → v (j + 8) = preamble_flag.getD j false)
  ∧ (∀ p e c (raw : List Bool),
      preambleCheck (fun k => (nrziInv raw).getD k false) = false →
      processWindow p e c raw = none) :=
  claim_C5 refWindow (by decide)

/-- Length of a `flatMap` of 8-element blocks. -/
theorem flatMapBlocks_length (F : Nat → List Bool) (hF : ∀ g, (F g).length = 8) (m : Nat) :
    ((List.range m).flatMap F).length = 8 * m := by
  induction m with
  | zero => simp
  | succ m ih =>
    rw [List.range_succ, List.flatMap_append]
    simp [ih, hF]
    omega

/-- Indexing into a `flatMap` of 8-element blocks. -/
theorem flatMapBlocks_getD (F : Nat → List Bool) (hF : ∀ g, (F g).length = 8) :
    ∀ m k d, k < 8 * m →
      ((List.range m).flatMap F).getD k d = (F (k / 8)).getD (k % 8) d := by
  intro m
  induction m with
  | zero =>
    intro k d hk
    omega
  | succ m ih =>
    intro k d hk
    rw [List.range_succ, List.flatMap_append]
    by_cases hk8 : k < 8 * m
    · rw [List.getD_append _ _ _ _ (by rw [flatMapBlocks_length F hF]; omega)]
      exact ih k d hk8
    · rw [List.getD_append_right _ _ _ _ (by rw [flatMapBlocks_length F hF]; omega)]
      rw [flatMapBlocks_length F hF]
      have h1 : k / 8 = m := by omega
      have h2 : k % 8 = k - 8 * m := by omega
      rw [h1, h2]
      simp

/-- Claim C9: on a length that is a multiple of 8, `flipBits` reverses
the intra-group bit order of each 8-bit group while preserving group
order; in particular the group `10110000` maps to `00001101`. -/
theorem claim_C9 (input : Nat → Bool) (size : Nat) (h : size % 8 = 0) :
    (flipBits input size).length = size
  ∧ (∀ g j, j < 8 → 8 * g + j < size →
      (flipBits input size).getD (8 * g + j) false = input (8 * g + 7 - j))
  ∧ flipBits exampleByte 8 = [false, false, false, false, true, true, false, true] := by
  have hF : ∀ g, ((List.range 8).map (fun j => input (8 * g + 7 - j))).length = 8 := by
    intro g
    simp
  refine ⟨?_, ?_, by decide⟩
  · unfold flipBits
    rw [flatMapBlocks_length _ hF]
    omega
  · intro g j hj hlt
    unfold flipBits
    rw [flatMapBlocks_getD _ hF _ _ _ (by omega)]
    have h1 : (8 * g + j) / 8 = g := by omega
    have h2 : (8 * g + j) % 8 = j := by omega
    rw [h1, h2, rangeMap_getD _ _ _ _ hj]

/-- Claim C9, witness: the theorem instantiated at the example byte. -/
theorem claim_C9_witness :
    (flipBits exampleByte 8).length = 8
  ∧ (∀ g j, j < 8 → 8 * g + j < 8 →
      (flipBits exampleByte 8).getD (8 * g + j) false = exampleByte (8 * g + 7 - j))
  ∧ flipBits exampleByte 8 = [false, false, false, false, true, true, false, true] :=
  claim_C9 exampleByte 8 (by decide)

/-- List-range sums agree with `Finset.range` sums. -/
theorem listSum_eq_finsetSum (f : Nat → Nat) (n : Nat) :
    ((List.range n).map f).sum = ∑ i ∈ Finset.range n, f i := by
  induction n with
  | zero => simp
  | succ n ih =>
    rw [List.range_succ, List.map_append, List.sum_append, Finset.sum_range_succ, ih]
    simp

/-- Splitting off the most significant bit of the accumulated
magnitude. -/
theorem magnitude_decomp (bits : Nat → Bool) (n : Nat) :
    ((List.range (n + 1)).map (fun i => (if bits i then 1 else 0) * 2 ^ (n - i))).sum =
      (if bits 0 then 1 else 0) * 2 ^ n +
        ((List.range n).map
          (fun k => (if bits (k + 1) then 1 else 0) * 2 ^ (n - 1 - k))).sum := by
  rw [List.range_succ_eq_map, List.map_cons, List.sum_cons, List.map_map]
  congr 1
  have hfun : ((fun i => (if bits i then 1 else 0) * 2 ^ (n - i)) ∘ Nat.succ) =
      (fun k => (if bits (k + 1) then 1 else 0) * 2 ^ (n - 1 - k)) := by
    funext k
    have he : n - (k + 1) = n - 1 - k := by omega
    simp [Function.comp, Nat.succ_eq_add_one, he]
  rw [hfun]

/-- The accumulated magnitude fits in `size` bits. -/
theorem magnitude_lt : ∀ (n : Nat) (bits : Nat → Bool),
    ((List.range n).map (fun i => (if bits i then 1 else 0) * 2 ^ (n - 1 - i))).sum < 2 ^ n := by
  intro n
  induction n with
  | zero =>
    intro bits
    simp
  | succ n ih =>
    intro bits
    have hexp : ∀ i : Nat, n + 1 - 1 - i = n - i := by omega
    simp only [hexp]
    rw [magnitude_decomp]
    have htail := ih (fun k => bits (k + 1))
    have hpow : (2 : Nat) ^ (n + 1) = 2 ^ n + 2 ^ n := by
      rw [pow_succ]
      omega
    by_cases hb : bits 0
    · rw [if_pos hb, one_mul]
      omega
    · rw [if_neg hb, zero_mul, Nat.zero_add]
      omega

/-- Bit `size - 1` of the accumulated magnitude is the first (most
significant) bit of the field. -/
theorem magnitude_testBit (bits : Nat → Bool) (n : Nat) :
    Nat.testBit
      ((List.range (n + 1)).map
        (fun i => (if bits i then 1 else 0) * 2 ^ (n + 1 - 1 - i))).sum n = bits 0 := by
  have hexp : ∀ i : Nat, n + 1 - 1 - i = n - i := by omega
  simp only [hexp]
  rw [Nat.testBit_to_div_mod, magnitude_decomp]
  have htail := magnitude_lt n (fun k => bits (k + 1))
  have hpos : 0 < 2 ^ n := Nat.pos_pow_of_pos n (by omega)
  by_cases hb : bits 0
  · rw [if_pos hb, one_mul, Nat.add_comm (2 ^ n), Nat.add_div_right _ hpos,
      Nat.div_eq_of_lt htail]
    simp [hb]
  · rw [if_neg hb, zero_mul, Nat.zero_add, Nat.div_eq_of_lt htail]
    simp [hb]

/-- Closed form of `binToDec`: big-endian magnitude, two's-complement
adjusted by the most significant bit. -/
theorem binToDec_eq (bits : Nat → Bool) (size : Nat) (h : 1 ≤ size) :
    binToDec bits size =
      (↑(∑ i ∈ Finset.range size, (if bits i then 1 else 0) * 2 ^ (size - 1 - i)) : Int)
        - (if bits 0 then 2 ^ size else 0) := by
  obtain ⟨n, rfl⟩ : ∃ n, size = n + 1 := ⟨size - 1, by omega⟩
  have htb := magnitude_testBit bits n
  unfold binToDec twosComplement
  rw [show n + 1 - 1 = n by omega] at htb ⊢
  rw [htb, listSum_eq_finsetSum]
  by_cases hb : bits 0 <;> simp [hb]

/-- Claim C6: for an in-bounds range `[start, stop)`, `getFromMessage`
returns the two's-complement value of the bits: the big-endian unsigned
magnitude minus `2^(stop-start)` when the leading bit is set; the four
example fields of §8 evaluate as stated. -/
theorem claim_C6 (input : List Bool) (start stop : Nat)
    (h1 : start < stop) (h2 : stop ≤ input.length) :
    getFromMessage (fun k => input.getD k false) start stop =
      (↑(∑ i ∈ Finset.range (stop - start),
          (if input.getD (start + i) false then 1 else 0) * 2 ^ (stop - start - 1 - i)) : Int)
        - (if input.getD start false then 2 ^ (stop - start) else 0)
  ∧ getFromMessage (fun k => [true, true, true, true, true, true].getD k false) 0 6 = -1
  ∧ getFromMessage (fun k => [false, true, true, true, true, true].getD k false) 0 6 = 31
  ∧ getFromMessage
      (fun k => [false, false, false, false, false, true].getD k false) 0 6 = 1
  ∧ getFromMessage
      (fun k => [true, false, false, false, false, false, false, false].getD k false) 0 8
      = -128 := by
  refine ⟨?_, by decide, by decide, by decide, by decide⟩
  have hmain := binToDec_eq (fun i => input.getD (start + i) false) (stop - start) (by omega)
  show binToDec (fun i => input.getD (start + i) false) (stop - start) = _
  rw [hmain]
  simp

/-- Claim C6, witness: the theorem instantiated at the 6-bit field
`111111`. -/
theorem claim_C6_witness :
    getFromMessage
        (fun k => [true, true, true, true, true, true].getD k false) 0 6 =
      (↑(∑ i ∈ Finset.range (6 - 0),
          (if [true, true, true, true, true, true].getD (0 + i) false then 1 else 0)
            * 2 ^ (6 - 0 - 1 - i)) : Int)
        - (if [true, true, true, true, true, true].getD 0 false then 2 ^ (6 - 0) else 0)
  ∧ getFromMessage (fun k => [true, true, true, true, true, true].getD k false) 0 6 = -1
  ∧ getFromMessage (fun k => [false, true, true, true, true, true].getD k false) 0 6 = 31
  ∧ getFromMessage
      (fun k => [false, false, false, false, false, true].getD k false) 0 6 = 1
  ∧ getFromMessage
      (fun k => [true, false, false, false, false, false, false, false].getD k false) 0 8
      = -128 :=
  claim_C6 [true, true, true, true, true, true] 0 6 (by decide) (by decide)

/-- Claim C8 fails on the code: the reference Field Extractor performs no
bounds check — on the malformed range `[0, 6)` over a 4-bit sequence the
spec-modelled checked extractor fails with an explicit error, while the
code's extractor silently returns the value `-4` computed from
out-of-range reads. -/
theorem claim_C8_counterexample :
    getFromMessageChecked [true, true, true, true] 0 6 = none
  ∧ getFromMessage (fun k => [true, true, true, true].getD k false) 0 6 = -4 := by
  constructor
  · decide
  · decide

/-- Claim C8 (amended): the fail-loudly behaviour is an obligation on
reimplementations, met by the spec-modelled `getFromMessageChecked`: it
fails with an explicit error exactly on malformed ranges and otherwise
agrees with the reference extractor, which itself never fails. -/
theorem claim_C8_amended (input : List Bool) (start stop : Nat) :
    (getFromMessageChecked input start stop = none ↔
      input.length < stop ∨ stop ≤ start)
  ∧ (∀ v : Int, getFromMessageChecked input start stop = some v →
      v = getFromMessage (fun k => input.getD k false) start stop) := by
  unfold getFromMessageChecked
  by_cases hc : stop ≤ input.length ∧ start < stop
  · rw [if_pos hc]
    constructor
    · simp
      omega
    · intro v hv
      exact (Option.some.inj hv).symm
  · rw [if_neg hc]
    constructor
    · simp
      omega
    · intro v hv
      exact absurd hv (by simp)

/-- NRZI decoding inverts inverse-NRZI encoding from any common initial
state. -/
theorem nrziInvAux_encodeAux (l : List Bool) :
    ∀ s, nrziInvAux s (nrziEncodeAux s l) = l := by
  induction l with
  | nil =>
    intro s
    rfl
  | cons v rest ih =>
    intro s
    cases v <;> cases s <;> simp [nrziEncodeAux, nrziInvAux, ih]

/-- Claim C4: encoding a bit sequence of length at most 256 with the
inverse NRZI rule (state starting at 0) and decoding with `nrziInv`
(state starting at 0) reproduces the original sequence. -/
theorem claim_C4 (l : List Bool) (h : l.length ≤ 256) :
    nrziInv (nrziEncode l) = l :=
  nrziInvAux_encodeAux l false

/-- Claim C4, witness: the theorem instantiated at a concrete
sequence. -/
theorem claim_C4_witness :
    nrziInv (nrziEncode [true, false, true, true, false]) = [true, false, true, true, false] :=
  claim_C4 [true, false, true, true, false] (by decide)

/-! Lemmas about `segment`. -/

theorem length_segment (input : Nat → Bool) (a b : Nat) :
    (segment input a b).length = b - a := by
  simp [segment]

theorem segment_empty (input : Nat → Bool) {a b : Nat} (h : b ≤ a) :
    segment input a b = [] := by
  simp [segment, Nat.sub_eq_zero_of_le h]

theorem segment_cons (input : Nat → Bool) {a b : Nat} (h : a < b) :
    segment input a b = input a :: segment input (a + 1) b := by
  unfold segment
  rw [show b - a = (b - (a + 1)) + 1 by omega]
  rw [List.range_succ_eq_map, List.map_cons, List.map_map, Nat.add_zero]
  congr 1
  congr 1
  funext k
  simp only [Function.comp, Nat.succ_eq_add_one]
  congr 1
  omega

theorem segment_split (input : Nat → Bool) :
    ∀ n a b c, b - a = n → a ≤ b → b ≤ c →
      segment input a c = segment input a b ++ segment input b c := by
  intro n
  induction n with
  | zero =>
    intro a b c hn h1 h2
    have hab : a = b := by omega
    subst hab
    rw [segment_empty input le_rfl, List.nil_append]
  | succ n ih =>
    intro a b c hn h1 h2
    have hab : a < b := by omega
    rw [segment_cons input (show a < c by omega), segment_cons input hab, List.cons_append]
    congr 1
    exact ih (a + 1) b c (by omega) (by omega) h2

theorem segment_take (input : Nat → Bool) {a b k : Nat} (h : a + k ≤ b) :
    (segment input a b).take k = segment input a (a + k) := by
  rw [segment_split input (a + k - a) a (a + k) b rfl (Nat.le_add_right a k) h]
  exact List.take_left' (by rw [length_segment]; omega)

theorem segment_drop (input : Nat → Bool) (a b k : Nat) :
    (segment input a b).drop k = segment input (a + k) b := by
  by_cases h : a + k ≤ b
  · rw [segment_split input (a + k - a) a (a + k) b rfl (Nat.le_add_right a k) h]
    exact List.drop_left' (by rw [length_segment]; omega)
  · rw [List.drop_eq_nil_of_le (by rw [length_segment]; omega),
      segment_empty input (by omega)]

theorem segment_getD_self (s : List Bool) :
    segment (fun k => s.getD k false) 0 s.length = s := by
  apply List.ext_getElem
  · rw [length_segment]
    omega
  · intro m h1 h2
    rw [length_segment] at h1
    unfold segment
    rw [List.getElem_map, List.getElem_range]
    simp only [Nat.zero_add]
    rw [List.getD_eq_getElem?_getD, List.getElem?_eq_getElem h2]
    rfl

theorem segment_replicate_iff (input : Nat → Bool) (a n : Nat) :
    segment input a (a + n) = List.replicate n true ↔
      ∀ j, j < n → input (a + j) = true := by
  unfold segment
  rw [show a + n - a = n by omega]
  constructor
  · intro he j hj
    have hcg := congrArg (fun l => l.getD j false) he
    simp only at hcg
    rw [rangeMap_getD _ _ _ _ hj] at hcg
    rw [List.getD_eq_getElem?_getD, List.getElem?_replicate, if_pos hj] at hcg
    exact hcg
  · intro hall
    apply List.ext_getElem
    · simp
    · intro m h1 h2
      simp only [List.length_map, List.length_range] at h1
      rw [List.getElem_map, List.getElem_range, List.getElem_replicate]
      exact hall m h1

/-- The all-ones window test of `bitStuffingInv` recognises exactly the
all-ones slice `input[i-4..i]`. -/
theorem window_iff (input : Nat → Bool) (i : Nat) (h4 : 4 ≤ i) :
    arrayEqualOne (fun j => input (i + j - 4)) 5 = true ↔
      segment input (i - 4) (i + 1) = List.replicate 5 true := by
  rw [show i + 1 = (i - 4) + 5 by omega]
  rw [segment_replicate_iff]
  unfold arrayEqualOne
  rw [List.all_eq_true]
  constructor
  · intro hall j hj
    have hj5 := hall j (List.mem_range.mpr hj)
    simpa [show i - 4 + j = i + j - 4 by omega] using hj5
  · intro hall j hjmem
    have hj := List.mem_range.mp hjmem
    have hj5 := hall j hj
    simpa [show i - 4 + j = i + j - 4 by omega] using hj5

/-! Lemmas about `destuffL`. -/

theorem destuffL_nil : destuffL [] = [] := by
  simp [destuffL]

theorem destuffL_match (l : List Bool) (hlen : 5 ≤ l.length)
    (htake : l.take 5 = List.replicate 5 true) :
    destuffL l = List.replicate 5 true ++ destuffL ((l.drop 5).drop 1) := by
  match l with
  | [] => simp at hlen
  | b :: rest =>
    rw [show destuffL (b :: rest) =
        (if 5 ≤ (b :: rest).length ∧ (b :: rest).take 5 = List.replicate 5 true then
          List.replicate 5 true ++ destuffL ((rest.drop 4).drop 1)
        else b :: destuffL rest) from by rw [destuffL]]
    rw [if_pos ⟨hlen, htake⟩]
    rfl

theorem destuffL_cons_nomatch (b : Bool) (rest : List Bool)
    (hnot : ¬ (5 ≤ (b :: rest).length ∧ (b :: rest).take 5 = List.replicate 5 true)) :
    destuffL (b :: rest) = b :: destuffL rest := by
  rw [show destuffL (b :: rest) =
      (if 5 ≤ (b :: rest).length ∧ (b :: rest).take 5 = List.replicate 5 true then
        List.replicate 5 true ++ destuffL ((rest.drop 4).drop 1)
      else b :: destuffL rest) from by rw [destuffL]]
  rw [if_neg hnot]

theorem destuffL_short : ∀ l : List Bool, l.length < 5 → destuffL l = l := by
  intro l
  induction l with
  | nil =>
    intro _
    exact destuffL_nil
  | cons b rest ih =>
    intro hlen
    rw [destuffL_cons_nomatch b rest (by intro hc; omega)]
    rw [ih (by simp at hlen; omega)]

theorem destuffL_sublist : ∀ (n : Nat) (l : List Bool), l.length ≤ n →
    List.Sublist (destuffL l) l := by
  intro n
  induction n with
  | zero =>
    intro l hl
    have : l = [] := by
      cases l with
      | nil => rfl
      | cons b rest => simp at hl
    subst this
    rw [destuffL_nil]
  | succ n ih =>
    intro l hl
    cases l with
    | nil =>
      rw [destuffL_nil]
    | cons b rest =>
      by_cases hc : 5 ≤ (b :: rest).length ∧ (b :: rest).take 5 = List.replicate 5 true
      · rw [destuffL_match _ hc.1 hc.2]
        conv_rhs => rw [← List.take_append_drop 5 (b :: rest)]
        rw [hc.2]
        apply List.Sublist.append_left
        have hrec := ih (((b :: rest).drop 5).drop 1) (by simp at hl ⊢; omega)
        exact hrec.trans (List.drop_sublist _ _)
      · rw [destuffL_cons_nomatch b rest hc]
        exact (ih rest (by simp at hl; omega)).cons₂ b

/-- The index-based destuffer of `aisdecode.c` agrees with the
list-walking destuffer `destuffL`: from a scan state `(i, i0)` the
remaining output is the pending segment `input[i0..i-5]` followed by the
destuffing of the suffix starting at the current window position
`i - 4`. -/
theorem bitStuffingInvAux_eq (input : Nat → Bool) (size : Nat) :
    ∀ n i i0, size - i = n → i0 + 4 ≤ i →
      bitStuffingInvAux input size i i0 =
        segment input i0 (min (i - 4) size) ++ destuffL (segment input (i - 4) size) := by
  intro n
  induction n using Nat.strong_induction_on with
  | _ n ih =>
    intro i i0 hn h4
    rw [bitStuffingInvAux]
    by_cases hi : i < size
    · rw [dif_pos hi]
      have hmin : min (i - 4) size = i - 4 := by omega
      rw [hmin]
      have hlen5 : 5 ≤ (segment input (i - 4) size).length := by
        rw [length_segment]
        omega
      have htake : (segment input (i - 4) size).take 5 = segment input (i - 4) (i + 1) := by
        rw [segment_take input (show (i - 4) + 5 ≤ size by omega)]
        rw [show i - 4 + 5 = i + 1 by omega]
      by_cases hw : arrayEqualOne (fun j => input (i + j - 4)) 5 = true
      · rw [if_pos hw]
        have hrep : segment input (i - 4) (i + 1) = List.replicate 5 true :=
          (window_iff input i (by omega)).mp hw
        rw [destuffL_match _ hlen5 (by rw [htake, hrep])]
        rw [segment_drop, show i - 4 + 5 = i + 1 by omega]
        rw [segment_drop, show i + 1 + 1 = i + 2 by omega]
        rw [ih (size - (i + 6)) (by omega) (i + 6) (i + 2) rfl (by omega)]
        rw [show i + 6 - 4 = i + 2 by omega]
        have hmin2 : segment input (i + 2) (min (i + 2) size) = [] := by
          by_cases h2 : i + 2 ≤ size
          · rw [Nat.min_eq_left h2]
            exact segment_empty input le_rfl
          · rw [Nat.min_eq_right (by omega)]
            exact segment_empty input (by omega)
        rw [hmin2, List.nil_append]
        rw [← hrep]
        rw [← List.append_assoc]
        rw [← segment_split input (i - 4 - i0) i0 (i - 4) (i + 1) rfl (by omega) (by omega)]
      · rw [if_neg hw]
        rw [ih (size - (i + 1)) (by omega) (i + 1) i0 rfl (by omega)]
        rw [show i + 1 - 4 = i - 3 by omega]
        have hmin3 : min (i - 3) size = i - 3 := by omega
        rw [hmin3]
        have hcons : segment input (i - 4) size = input (i - 4) :: segment input (i - 3) size := by
          rw [segment_cons input (show i - 4 < size by omega), show i - 4 + 1 = i - 3 by omega]
        rw [hcons, destuffL_cons_nomatch]
        · rw [segment_split input (i - 4 - i0) i0 (i - 4) (i - 3) rfl (by omega) (by omega)]
          rw [show segment input (i - 4) (i - 3) = [input (i - 4)] from by
            rw [segment_cons input (show i - 4 < i - 3 by omega),
              show i - 4 + 1 = i - 3 by omega, segment_empty input le_rfl]]
          simp
        · intro hcond
          apply hw
          apply (window_iff input i (by omega)).mpr
          have htk := hcond.2
          rw [← hcons] at htk
          rw [htake] at htk
          exact htk
    · rw [dif_neg hi]
      by_cases hs : i - 4 < size
      · have hmin : min (i - 4) size = i - 4 := by omega
        rw [hmin]
        have hshort : (segment input (i - 4) size).length < 5 := by
          rw [length_segment]
          omega
        rw [destuffL_short _ hshort]
        exact segment_split input (i - 4 - i0) i0 (i - 4) size rfl (by omega) (by omega)
      · have hmin : min (i - 4) size = size := by omega
        rw [hmin]
        rw [segment_empty input (show size ≤ i - 4 by omega), destuffL_nil, List.append_nil]

/-- The destuffer of `aisdecode.c` is exactly `destuffL` on the input
slice. -/
theorem bitStuffingInv_eq_destuffL (input : Nat → Bool) (size : Nat) :
    bitStuffingInv input size = destuffL (segment input 0 size) := by
  unfold bitStuffingInv
  rw [bitStuffingInvAux_eq input size (size - 4) 4 0 rfl (by omega)]
  rw [show (4 : Nat) - 4 = 0 from rfl]
  rw [Nat.zero_min, segment_empty input le_rfl, List.nil_append]

/-- A list whose first five elements are all `1` is `true` at every
position below 5. -/
theorem take5_getD (l : List Bool) (htake : l.take 5 = List.replicate 5 true)
    (m : Nat) (hm : m < 5) (hlen : 5 ≤ l.length) : l.getD m false = true := by
  have hsw : (l.take 5).getD m false = l.getD m false := by
    rw [List.getD_eq_getElem?_getD, List.getD_eq_getElem?_getD, List.getElem?_take,
      if_pos hm]
  rw [← hsw, htake, List.getD_eq_getElem?_getD, List.getElem?_replicate, if_pos hm]
  rfl

/-- Shuffling a `1` across a block of leading `1`s. -/
theorem repCons (c : Nat) (x : List Bool) :
    List.replicate c true ++ true :: x = List.replicate (c + 1) true ++ x := by
  rw [List.replicate_succ', List.append_assoc]
  rfl

/-- Round trip of the spec's bit stuffing against `destuffL`, generalised
over the run counter: a stream consisting of `c` pending `1` bits
followed by the stuffing of `l` at counter `c` destuffs to those `c` bits
followed by `l`. -/
theorem destuffL_stuff : ∀ (n c : Nat) (l : List Bool), 5 * l.length + c = n → c ≤ 4 →
    destuffL (List.replicate c true ++ stuff c l) = List.replicate c true ++ l := by
  intro n
  induction n using Nat.strong_induction_on with
  | _ n ih =>
    intro c l hn hc
    cases l with
    | nil =>
      rw [show stuff c [] = [] from by simp [stuff], List.append_nil]
      exact destuffL_short _ (by simp; omega)
    | cons b rest =>
      simp only [List.length_cons] at hn
      cases b with
      | false =>
        rw [show stuff c (false :: rest) = false :: stuff 0 rest from by simp [stuff]]
        cases c with
        | zero =>
          simp only [List.replicate_zero, List.nil_append]
          rw [destuffL_cons_nomatch]
          · have h0 := ih (5 * rest.length) (by omega) 0 rest (by omega) (by omega)
            simp only [List.replicate_zero, List.nil_append] at h0
            rw [h0]
          · intro hcond
            have hf := take5_getD _ hcond.2 0 (by omega) hcond.1
            simp at hf
        | succ c' =>
          rw [show List.replicate (c' + 1) true ++ (false :: stuff 0 rest) =
              true :: (List.replicate c' true ++ (false :: stuff 0 rest)) from by
            rw [List.replicate_succ, List.cons_append]]
          rw [destuffL_cons_nomatch]
          · have hstuff : stuff c' (false :: rest) = false :: stuff 0 rest := by
              simp [stuff]
            have hrec := ih (5 * (rest.length + 1) + c') (by omega) c' (false :: rest)
              (by simp) (by omega)
            rw [hstuff] at hrec
            rw [hrec]
            rw [show (true : Bool) :: (List.replicate c' true ++ false :: rest) =
                List.replicate (c' + 1) true ++ false :: rest from by
              rw [List.replicate_succ, List.cons_append]]
          · intro hcond
            have hf := take5_getD _ hcond.2 (c' + 1) (by omega) hcond.1
            rw [List.getD_cons_succ] at hf
            rw [List.getD_append_right _ _ _ _ (by simp)] at hf
            simp at hf
      | true =>
        by_cases hc4 : c = 4
        · subst hc4
          rw [show stuff 4 (true :: rest) = true :: false :: stuff 0 rest from by
            simp [stuff]]
          rw [show List.replicate 4 true ++ (true :: false :: stuff 0 rest) =
              List.replicate 5 true ++ (false :: stuff 0 rest) from
            repCons 4 (false :: stuff 0 rest)]
          rw [destuffL_match _ (by simp)
            (List.take_left' (by simp))]
          rw [List.drop_left' (show (List.replicate 5 true).length = 5 from by simp)]
          rw [show (false :: stuff 0 rest).drop 1 = stuff 0 rest from rfl]
          have h0 := ih (5 * rest.length) (by omega) 0 rest (by omega) (by omega)
          simp only [List.replicate_zero, List.nil_append] at h0
          rw [h0]
          rfl
        · rw [show stuff c (true :: rest) = true :: stuff (c + 1) rest from by
            simp [stuff, hc4]]
          rw [repCons]
          have hrec := ih (5 * rest.length + (c + 1)) (by omega) (c + 1) rest
            (by omega) (by omega)
          rw [hrec, ← repCons]

/-- Claim C3: forward bit stuffing followed by `bitStuffingInv`
reproduces the original sequence, and the returned count (the number of
bits written) equals the original length. -/
theorem claim_C3 (l : List Bool) :
    bitStuffingInv (fun k => (stuff 0 l).getD k false) (stuff 0 l).length = l
  ∧ (bitStuffingInv (fun k => (stuff 0 l).getD k false) (stuff 0 l).length).length
      = l.length := by
  have h1 : bitStuffingInv (fun k => (stuff 0 l).getD k false) (stuff 0 l).length =
      destuffL (stuff 0 l) := by
    rw [bitStuffingInv_eq_destuffL, segment_getD_self]
  have h2 := destuffL_stuff (5 * l.length) 0 l (by omega) (by omega)
  simp only [List.replicate_zero, List.nil_append] at h2
  rw [h1, h2]
  exact ⟨rfl, rfl⟩

/-- Claim C10: the destuffer's output is a subsequence of its input (bits
are only deleted, never altered or reordered), and its length — the C
function's returned count — is at most the input size. -/
theorem claim_C10 (input : Nat → Bool) (size : Nat) :
    List.Sublist (bitStuffingInv input size) (segment input 0 size)
  ∧ (bitStuffingInv input size).length ≤ size := by
  have he : bitStuffingInv input size = destuffL (segment input 0 size) :=
    bitStuffingInv_eq_destuffL input size
  have hsub : List.Sublist (destuffL (segment input 0 size)) (segment input 0 size) :=
    destuffL_sublist (segment input 0 size).length _ le_rfl
  constructor
  · rw [he]
    exact hsub
  · rw [he]
    have hlen := hsub.length_le
    rw [length_segment] at hlen
    omega

/-- Claim C1 (amended), witness: the theorem instantiated at `sizeSignal
= 4096`, `timeDelay = 8`, window 3, bit 10. -/
theorem claim_C1_amended_witness :
    (driverWindows (fun n => decide (n % 2 = 0)) 4096 8).length = 4096 / 8 - 2
  ∧ ((driverWindows (fun n => decide (n % 2 = 0)) 4096 8).getD 3 []).getD 10 false =
      (fun n => decide (n % 2 = 0)) (3 + 10)
  ∧ ((driverWindows (fun n => decide (n % 2 = 0)) 4096 8).getD 3 []).getD (10 + 1) false =
      ((driverWindows (fun n => decide (n % 2 = 0)) 4096 8).getD (3 + 1) []).getD 10 false :=
  claim_C1_amended (fun n => decide (n % 2 = 0)) 4096 8 3 10 (by decide) (by decide)

end SDR
